import Mathlib

/-!
Verification of the spike dashboard core (src/api.py, src/processing/jobs.py,
src/processing/algorithms.py) against its specification.

The embedding conventions:
* raw sample values are integers (the data files hold int16 samples) and
  filtered values are rationals;
* the channel/time buffer is a list of channel rows, the active store is an
  Option over it (None when no dataset is loaded);
* numpy slicing row[s:e] with non-negative bounds is take/drop, which clamps
  exactly as numpy does;
* Python dicts that the code builds by insertion are modelled as
  insertion-ordered association lists;
* fallible code returns Except, and the scipy filter core (butter + filtfilt),
  which the code wraps in try/except, is an abstract fallible function
  parameter.
-/

namespace SpikeDashboard

/-- numpy slice row[s:e] on an integer row, for non-negative bounds. -/
def rowSlice (row : List Int) (s e : Nat) : List Int :=
  (row.take e).drop s

/-- The channel loop of extract_data_block (src/api.py lines 328-334): walk
the requested channel ids in order, keep the ids whose 0-based index
channel_id - 1 is in range, and collect the corresponding row slices. -/
def extractLoop (rows : List (List Int)) (s e : Nat) : List Int → List Int × List (List Int)
  | [] => ([], [])
  | c :: cs =>
      let rest := extractLoop rows s e cs
      if 0 ≤ c - 1 ∧ c - 1 < (rows.length : Int) then
        (c :: rest.1, rowSlice (rows.getD (c - 1).toNat []) s e :: rest.2)
      else rest

/-- extract_data_block (src/api.py lines 322-339).  Returns the valid channel
ids, the stacked block rows, and the block width (second component of the
numpy shape; np.zeros((0, max(end - start, 0))) in the no-valid-channel
case).  It raises only when no data is loaded. -/
def extract_data_block (store : Option (List (List Int))) (channels : List Int)
    (s e : Nat) : Except String (List Int × List (List Int) × Nat) :=
  match store with
  | none => Except.error "Data not loaded"
  | some rows =>
      match extractLoop rows s e channels with
      | (valid, []) => Except.ok (valid, [], e - s)
      | (valid, b :: bs) => Except.ok (valid, b :: bs, b.length)

/-- The in-range test of the loop, phrased as the spec phrases it. -/
def validChannel (rows : List (List Int)) (c : Int) : Bool :=
  decide (1 ≤ c ∧ c ≤ (rows.length : Int))

theorem extract_data_block_some (rows : List (List Int)) (channels : List Int)
    (s e : Nat) :
    extract_data_block (some rows) channels s e =
      match extractLoop rows s e channels with
      | (valid, []) => Except.ok (valid, [], e - s)
      | (valid, b :: bs) => Except.ok (valid, b :: bs, b.length) := rfl

theorem extractLoop_eq_filter_map (rows : List (List Int)) (s e : Nat)
    (channels : List Int) :
    extractLoop rows s e channels =
      (channels.filter (validChannel rows),
       (channels.filter (validChannel rows)).map
         (fun c => rowSlice (rows.getD (c - 1).toNat []) s e)) := by
  induction channels with
  | nil => rfl
  | cons c cs ih =>
      have hiff : (0 ≤ c - 1 ∧ c - 1 < (rows.length : Int)) ↔
          (1 ≤ c ∧ c ≤ (rows.length : Int)) := by omega
      by_cases h : 1 ≤ c ∧ c ≤ (rows.length : Int)
      · simp only [extractLoop, ih, hiff, if_pos h, List.filter_cons, validChannel,
          decide_eq_true_eq, h, List.map_cons]
        simp [h]
      · simp only [extractLoop, ih, hiff, if_neg h, List.filter_cons, validChannel]
        simp [h]

/-- C1: for a loaded dataset, extract_data_block never errors for any channel
list: it drops exactly the channel ids outside [1, channelCount], returns the
remaining valid ids unchanged and in request order, and pairs them with one
data row (the corresponding row slice) per valid channel; with no dataset
loaded it raises its only error, Data not loaded. -/
theorem extract_drops_invalid_channels (rows : List (List Int))
    (channels : List Int) (s e : Nat) :
    extract_data_block none channels s e = Except.error "Data not loaded" ∧
    ∃ blocks width,
      extract_data_block (some rows) channels s e =
        Except.ok (channels.filter (validChannel rows), blocks, width) ∧
      blocks = (channels.filter (validChannel rows)).map
          (fun c => rowSlice (rows.getD (c - 1).toNat []) s e) := by
  refine ⟨rfl, ?_⟩
  have hloop := extractLoop_eq_filter_map rows s e channels
  by_cases hempty : channels.filter (validChannel rows) = []
  · refine ⟨[], e - s, ?_, by rw [hempty]; rfl⟩
    rw [extract_data_block_some, hloop, hempty]
    rfl
  · obtain ⟨v, vs, hV⟩ := List.exists_cons_of_ne_nil hempty
    refine ⟨(channels.filter (validChannel rows)).map
        (fun c => rowSlice (rows.getD (c - 1).toNat []) s e),
      (rowSlice (rows.getD (v - 1).toNat []) s e).length, ?_, rfl⟩
    rw [extract_data_block_some, hloop, hV]
    rfl

/-- C10: for a loaded dataset and a window with end ≥ start, a channel list
with no valid channel does not raise: extract_data_block returns the empty
valid-channel list and a zero-row block of width end - start. -/
theorem extract_no_valid_channels (rows : List (List Int))
    (channels : List Int) (s e : Nat) (hse : s ≤ e)
    (hnone : channels.filter (validChannel rows) = []) :
    extract_data_block (some rows) channels s e = Except.ok ([], [], e - s) := by
  have hloop := extractLoop_eq_filter_map rows s e channels
  rw [extract_data_block_some, hloop, hnone]
  rfl

/-- Witness for the C10 theorem at a concrete input: a one-channel dataset
with requested channels 0 and 5 (both invalid) over the window [1, 3). -/
theorem extract_no_valid_channels_witness :
    extract_data_block (some [[10, 20, 30]]) [0, 5] 1 3 = Except.ok ([], [], 2) :=
  extract_no_valid_channels [[10, 20, 30]] [0, 5] 1 3 (by decide) (by decide)

/-! Job state and results (src/processing/jobs.py). -/

/-- The status strings a SpikeSortingJob can carry. -/
inductive JobStatus
  | queued | running | completed | failed | cancelled
deriving DecidableEq

/-- JobResult (src/processing/jobs.py lines 16-26): channel list, original
window, and the optional filtered block, one row per job channel.  The job
constructs channels and filtered from the same stacked block, so they always
have equal lengths; the row-indexed numpy access of filtered_map is modelled
by zipping the two lists. -/
structure JobResultM where
  channels : List Int
  startTime : Int
  endTime : Int
  filtered : Option (List (List ℚ))

/-- numpy slice row[a:b] on a rational row, for non-negative bounds. -/
def qSlice (row : List ℚ) (a b : Int) : List ℚ :=
  (row.take b.toNat).drop a.toNat

/-- JobResult.filtered_map (src/processing/jobs.py lines 38-49): empty unless
filtered data exists and the requested window is inside the job window;
otherwise the insertion-ordered dict of requested channels to sliced rows. -/
def filtered_map (r : JobResultM) (request : List Int) (s e : Int) :
    List (Int × List ℚ) :=
  match r.filtered with
  | none => []
  | some rows =>
      if s < r.startTime ∨ e > r.endTime then []
      else
        (r.channels.zip rows).foldr
          (fun p acc =>
            if p.1 ∈ request then
              (p.1, qSlice p.2 (s - r.startTime) (e - r.startTime)) :: acc
            else acc) []

/-- A job as the window path sees it: its status and optional result. -/
structure JobM where
  status : JobStatus
  result : Option JobResultM

/-- The completed-status guard of get_spike_data (src/api.py lines 490-494)
composed with JobResult.filtered_map: the map of job rows a window request
may reuse. -/
def resultWindow (job : JobM) (request : List Int) (s e : Int) :
    List (Int × List ℚ) :=
  match job.result with
  | some r => if job.status = JobStatus.completed then filtered_map r request s e else []
  | none => []

theorem foldr_slice_filter (request : List Int) (g : List ℚ → List ℚ)
    (l : List (Int × List ℚ)) :
    l.foldr (fun p acc => if p.1 ∈ request then (p.1, g p.2) :: acc else acc) [] =
      (l.filter (fun p => decide (p.1 ∈ request))).map (fun p => (p.1, g p.2)) := by
  induction l with
  | nil => rfl
  | cons x xs ih =>
      by_cases hx : x.1 ∈ request <;> simp [List.filter_cons, hx, ih]

theorem resultWindow_eq (job : JobM) (r : JobResultM) (request : List Int)
    (s e : Int) (hst : job.status = JobStatus.completed)
    (hres : job.result = some r) :
    resultWindow job request s e = filtered_map r request s e := by
  unfold resultWindow
  rw [hres]
  show (if job.status = JobStatus.completed then filtered_map r request s e
    else []) = filtered_map r request s e
  simp [hst]

theorem filtered_map_none (r : JobResultM) (request : List Int) (s e : Int)
    (hf : r.filtered = none) : filtered_map r request s e = [] := by
  unfold filtered_map
  rw [hf]

theorem filtered_map_some (r : JobResultM) (rows : List (List ℚ))
    (request : List Int) (s e : Int) (hf : r.filtered = some rows) :
    filtered_map r request s e =
      if s < r.startTime ∨ e > r.endTime then []
      else
        (r.channels.zip rows).foldr
          (fun p acc =>
            if p.1 ∈ request then
              (p.1, qSlice p.2 (s - r.startTime) (e - r.startTime)) :: acc
            else acc) [] := by
  unfold filtered_map
  rw [hf]

/-- C2: resultWindow returns an empty map unless the job is completed, its
result has filtered data, and [start, end] lies inside the job's original
window; when all three hold it returns exactly the rows of the channels
present in both the request and the job's channel list, each sliced to the
requested sub-window. -/
theorem resultWindow_spec (job : JobM) (request : List Int) (s e : Int) :
    (job.status ≠ JobStatus.completed → resultWindow job request s e = []) ∧
    (job.result = none → resultWindow job request s e = []) ∧
    (∀ r, job.result = some r → r.filtered = none →
      resultWindow job request s e = []) ∧
    (∀ r rows, job.result = some r → r.filtered = some rows →
      (s < r.startTime ∨ e > r.endTime) → resultWindow job request s e = []) ∧
    (∀ r rows, job.status = JobStatus.completed → job.result = some r →
      r.filtered = some rows → r.startTime ≤ s → e ≤ r.endTime →
      resultWindow job request s e =
        ((r.channels.zip rows).filter (fun p => decide (p.1 ∈ request))).map
          (fun p => (p.1, qSlice p.2 (s - r.startTime) (e - r.startTime)))) := by
  have hnotc : job.status ≠ JobStatus.completed →
      resultWindow job request s e = [] := by
    intro hst
    unfold resultWindow
    cases hres : job.result with
    | none => rfl
    | some r =>
        show (if job.status = JobStatus.completed then filtered_map r request s e
          else []) = []
        simp [hst]
  refine ⟨hnotc, ?_, ?_, ?_, ?_⟩
  · intro hres
    unfold resultWindow
    rw [hres]
  · intro r hres hf
    by_cases hst : job.status = JobStatus.completed
    · rw [resultWindow_eq job r request s e hst hres, filtered_map_none r request s e hf]
    · exact hnotc hst
  · intro r rows hres hf hout
    by_cases hst : job.status = JobStatus.completed
    · rw [resultWindow_eq job r request s e hst hres,
        filtered_map_some r rows request s e hf, if_pos hout]
    · exact hnotc hst
  · intro r rows hst hres hf hs he
    have hin : ¬ (s < r.startTime ∨ e > r.endTime) := by
      push_neg
      exact ⟨hs, he⟩
    rw [resultWindow_eq job r request s e hst hres,
      filtered_map_some r rows request s e hf, if_neg hin]
    exact foldr_slice_filter request
      (fun row => qSlice row (s - r.startTime) (e - r.startTime)) (r.channels.zip rows)

/-- Witness for the C2 theorem: a completed two-channel job over window
[0, 4), queried for channel 2 over the sub-window [1, 3). -/
theorem resultWindow_spec_witness :
    resultWindow
      { status := JobStatus.completed,
        result := some
          { channels := [1, 2], startTime := 0, endTime := 4,
            filtered := some [[1, 2, 3, 4], [5, 6, 7, 8]] } }
      [2] 1 3 = [(2, [6, 7])] := by
  have h := (resultWindow_spec
      { status := JobStatus.completed,
        result := some
          { channels := [1, 2], startTime := 0, endTime := 4,
            filtered := some [[1, 2, 3, 4], [5, 6, 7, 8]] } }
      [2] 1 3).2.2.2.2
      { channels := [1, 2], startTime := 0, endTime := 4,
        filtered := some [[1, 2, 3, 4], [5, 6, 7, 8]] }
      [[1, 2, 3, 4], [5, 6, 7, 8]] rfl rfl rfl (by decide) (by decide)
  rw [h]
  decide

/-! Job cancellation (src/processing/jobs.py lines 181-194). -/

/-- Observable state of a job's concurrent future: whether it is done, and
whether future.cancel() would succeed (true only while the task has not yet
started running). -/
structure FutureState where
  done : Bool
  cancelable : Bool
deriving DecidableEq

/-- A job as cancel_job sees it under the manager lock. -/
structure ManagedJob where
  status : JobStatus
  future : Option FutureState
deriving DecidableEq

/-- cancel_job (src/processing/jobs.py lines 181-194) for a job found in the
table: returns the boolean answer and the updated job.  The guard checks only
the completed and failed statuses; with a live not-done future it returns
whatever future.cancel() returns, and otherwise it marks the job cancelled
and returns true. -/
def cancel_job (j : ManagedJob) : Bool × ManagedJob :=
  if j.status = JobStatus.completed ∨ j.status = JobStatus.failed then (false, j)
  else
    match j.future with
    | some f =>
        if f.done = false then
          if f.cancelable then (true, { j with status := JobStatus.cancelled })
          else (false, j)
        else (true, { j with status := JobStatus.cancelled })
    | none => (true, { j with status := JobStatus.cancelled })

/-- Position of a status along the queued → running → terminal order. -/
def statusRank : JobStatus → Nat
  | JobStatus.queued => 0
  | JobStatus.running => 1
  | _ => 2

/-- _execute_job entry (src/processing/jobs.py line 140): the worker that
picked the job up marks it running. -/
def workerPickUp (j : ManagedJob) : ManagedJob :=
  { j with status := JobStatus.running }

/-- _execute_job exit (src/processing/jobs.py lines 154-160): the worker
records completed on success and failed on any error. -/
def workerFinish (j : ManagedJob) (ok : Bool) : ManagedJob :=
  { j with status := if ok then JobStatus.completed else JobStatus.failed }

/-- C3 counterexample: a job already cancelled (terminal) whose future has
been dropped by _finalise_job.  cancel_job answers true on it, not false,
because its guard checks only the completed and failed statuses. -/
theorem cancel_cancelled_job_returns_true :
    (cancel_job { status := JobStatus.cancelled, future := none }).1 = true ∧
    (cancel_job { status := JobStatus.cancelled, future := none }).2.status =
      JobStatus.cancelled := by
  decide

/-- C3 amended: cancel_job returns false exactly for completed and failed
jobs and for jobs whose live future refuses cancellation, leaving the job
unchanged in every false case; whenever it returns true it (re)marks the job
cancelled, which can happen only from queued, running, or already-cancelled
jobs; and no call moves a job to an earlier state, nor do the worker
transitions (queued to running, running to completed or failed). -/
theorem cancel_job_spec (j : ManagedJob) :
    ((j.status = JobStatus.completed ∨ j.status = JobStatus.failed) →
      cancel_job j = (false, j)) ∧
    ((cancel_job j).1 = false → (cancel_job j).2 = j) ∧
    ((cancel_job j).1 = true →
      (cancel_job j).2.status = JobStatus.cancelled ∧
      (j.status = JobStatus.queued ∨ j.status = JobStatus.running ∨
        j.status = JobStatus.cancelled)) ∧
    statusRank j.status ≤ statusRank (cancel_job j).2.status ∧
    (j.status = JobStatus.queued →
      statusRank j.status ≤ statusRank (workerPickUp j).status) ∧
    (∀ ok, j.status = JobStatus.running →
      statusRank j.status ≤ statusRank (workerFinish j ok).status) := by
  obtain ⟨st, fut⟩ := j
  cases st <;> rcases fut with _ | ⟨d, c⟩ <;> first
    | (refine ⟨?_, ?_, ?_, ?_, ?_, ?_⟩ <;> decide)
    | (cases d <;> cases c <;> (refine ⟨?_, ?_, ?_, ?_, ?_, ?_⟩ <;> decide))

/-- Witness for the C3 amended theorem: cancel_job on a completed job
returns false and leaves it untouched. -/
theorem cancel_job_spec_witness :
    cancel_job { status := JobStatus.completed, future := none } =
      (false, { status := JobStatus.completed, future := none }) :=
  (cancel_job_spec { status := JobStatus.completed, future := none }).1 (Or.inl rfl)

/-! Algorithm registry (src/processing/algorithms.py). -/

/-- Python dict assignment d[k] = v on an insertion-ordered association
list: an existing key keeps its position and gets the new value, a new key is
appended. -/
def setParam {α : Type} (d : List (String × α)) (k : String) (v : α) :
    List (String × α) :=
  if d.any (fun p => p.1 == k) then
    d.map (fun p => if p.1 == k then (k, v) else p)
  else d ++ [(k, v)]

/-- Python dict.update(upd) applied to base: assign every binding of upd in
order. -/
def dictUpdate {α : Type} (base upd : List (String × α)) : List (String × α) :=
  upd.foldl (fun acc p => setParam acc p.1 p.2) base

/-- Python dict lookup d.get(k) on an association list. -/
def getParam {α : Type} (d : List (String × α)) (k : String) : Option α :=
  (d.find? (fun p => p.1 == k)).map (fun p => p.2)

/-- AlgorithmSpec (src/processing/algorithms.py lines 27-36): availability
flag, optional runner, and declared default parameters.  α is the parameter
value type, β the data block type, γ the runner result type. -/
structure AlgorithmSpecM (α β γ : Type) where
  name : String
  available : Bool
  runner : Option (β → List (String × α) → γ)
  parameters : List (String × α)

/-- AlgorithmSpec.run (src/processing/algorithms.py lines 38-46): fail with
Unavailable when the flag is off or no runner is bound, otherwise call the
runner on the caller params merged over the declared defaults. -/
def AlgorithmSpecM.run {α β γ : Type} (spec : AlgorithmSpecM α β γ) (data : β)
    (params : List (String × α)) : Except String γ :=
  if spec.available = false then
    Except.error ("Algorithm " ++ spec.name ++ " is not available in this environment")
  else
    match spec.runner with
    | none => Except.error ("Algorithm " ++ spec.name ++ " does not define a runner")
    | some f => Except.ok (f data (dictUpdate spec.parameters params))

/-- AlgorithmRegistry.ensure_algorithm (src/processing/algorithms.py lines
82-86): KeyError for an unknown name, Unavailable for a disabled spec. -/
def ensure_algorithm {α β γ : Type} (reg : List (String × AlgorithmSpecM α β γ))
    (name : String) : Except String (AlgorithmSpecM α β γ) :=
  match (reg.find? (fun p => p.1 == name)).map (fun p => p.2) with
  | none => Except.error ("Unknown algorithm " ++ name)
  | some spec =>
      if spec.available = false then
        Except.error ("Algorithm " ++ name ++ " is not available")
      else Except.ok spec

/-- The job record start_job creates once ensure_algorithm has passed
(src/processing/jobs.py lines 99-132). -/
structure NewJob (α : Type) where
  algorithm : String
  params : List (String × α)
  status : JobStatus

/-- SpikeSortingJobManager.start_job (src/processing/jobs.py lines 99-132):
resolve the algorithm through ensure_algorithm first; only if that passes is
a queued job object created, stored, and submitted to the pool. -/
def start_job {α β γ : Type} (reg : List (String × AlgorithmSpecM α β γ))
    (name : String) (params : List (String × α)) : Except String (NewJob α) :=
  match ensure_algorithm reg name with
  | Except.error e => Except.error e
  | Except.ok _ => Except.ok { algorithm := name, params := params, status := JobStatus.queued }

/-- _execute_job's outcome for a job (src/processing/jobs.py lines 134-162):
completed when spec.run returns, failed with the recorded message when it
raises (AlgorithmUnavailable included). -/
def execute_outcome {α β γ : Type} (spec : AlgorithmSpecM α β γ) (data : β)
    (params : List (String × α)) : JobStatus × Option String :=
  match spec.run data params with
  | Except.ok _ => (JobStatus.completed, none)
  | Except.error e => (JobStatus.failed, some e)

theorem find_map_overwrite_self {α : Type} (d : List (String × α)) (k : String)
    (v : α) (hany : d.any (fun p => p.1 == k)) :
    (d.map (fun p => if p.1 == k then (k, v) else p)).find? (fun p => p.1 == k) =
      some (k, v) := by
  induction d with
  | nil => simp at hany
  | cons x xs ih =>
      by_cases hx : (x.1 == k) = true
      · rw [List.map_cons, if_pos hx,
          List.find?_cons_of_pos (p := fun (q : String × α) => q.1 == k) _
            (show (((k, v) : String × α).1 == k) = true by simp)]
      · have hxs : xs.any (fun p => p.1 == k) := by
          simpa [List.any_cons, hx] using hany
        rw [List.map_cons, if_neg hx,
          List.find?_cons_of_neg (p := fun (q : String × α) => q.1 == k) _ hx]
        exact ih hxs

theorem find_append_single_self {α : Type} (d : List (String × α)) (k : String)
    (v : α) (hany : ¬ d.any (fun p => p.1 == k) = true) :
    (d ++ [(k, v)]).find? (fun p => p.1 == k) = some (k, v) := by
  induction d with
  | nil =>
      rw [List.nil_append,
        List.find?_cons_of_pos (p := fun (q : String × α) => q.1 == k) _
          (show (((k, v) : String × α).1 == k) = true by simp)]
  | cons x xs ih =>
      have hx : ¬ (x.1 == k) = true := fun h => hany (by simp [List.any_cons, h])
      have hxs : ¬ xs.any (fun p => p.1 == k) = true :=
        fun h => hany (by simp [List.any_cons, h])
      rw [List.cons_append,
        List.find?_cons_of_neg (p := fun (q : String × α) => q.1 == k) _ hx]
      exact ih hxs

theorem find_map_overwrite_ne {α : Type} (d : List (String × α)) (k k' : String)
    (v : α) (hne : k' ≠ k) :
    (d.map (fun p => if p.1 == k then (k, v) else p)).find? (fun p => p.1 == k') =
      d.find? (fun p => p.1 == k') := by
  induction d with
  | nil => rfl
  | cons x xs ih =>
      by_cases hx : (x.1 == k) = true
      · have hxk : x.1 = k := by simpa using hx
        have hmiss : ¬ (k == k') = true := by simpa using (Ne.symm hne)
        have hmiss' : ¬ (x.1 == k') = true := by rw [hxk]; exact hmiss
        rw [List.map_cons, if_pos hx,
          List.find?_cons_of_neg (p := fun (q : String × α) => q.1 == k') _
            (show ¬ (((k, v) : String × α).1 == k') = true from hmiss),
          List.find?_cons_of_neg (p := fun (q : String × α) => q.1 == k') _ hmiss']
        exact ih
      · rw [List.map_cons, if_neg hx]
        by_cases hx' : (x.1 == k') = true
        · rw [List.find?_cons_of_pos (p := fun (q : String × α) => q.1 == k') _ hx',
            List.find?_cons_of_pos (p := fun (q : String × α) => q.1 == k') _ hx']
        · rw [List.find?_cons_of_neg (p := fun (q : String × α) => q.1 == k') _ hx',
            List.find?_cons_of_neg (p := fun (q : String × α) => q.1 == k') _ hx']
          exact ih

theorem find_append_single_ne {α : Type} (d : List (String × α)) (k k' : String)
    (v : α) (hne : k' ≠ k) :
    (d ++ [(k, v)]).find? (fun p => p.1 == k') = d.find? (fun p => p.1 == k') := by
  induction d with
  | nil =>
      have hmiss : ¬ (k == k') = true := by simpa using (Ne.symm hne)
      rw [List.nil_append,
        List.find?_cons_of_neg (p := fun (q : String × α) => q.1 == k') _
          (show ¬ (((k, v) : String × α).1 == k') = true from hmiss)]
  | cons x xs ih =>
      by_cases hx : (x.1 == k') = true
      · rw [List.cons_append, List.find?_cons_of_pos (p := fun (q : String × α) => q.1 == k') _ hx,
          List.find?_cons_of_pos (p := fun (q : String × α) => q.1 == k') _ hx]
      · rw [List.cons_append, List.find?_cons_of_neg (p := fun (q : String × α) => q.1 == k') _ hx,
          List.find?_cons_of_neg (p := fun (q : String × α) => q.1 == k') _ hx]
        exact ih

theorem getParam_setParam_self {α : Type} (d : List (String × α)) (k : String)
    (v : α) : getParam (setParam d k v) k = some v := by
  unfold setParam getParam
  by_cases hany : d.any (fun p => p.1 == k) = true
  · rw [if_pos hany, find_map_overwrite_self d k v hany]
    rfl
  · rw [if_neg hany, find_append_single_self d k v hany]
    rfl

theorem getParam_setParam_ne {α : Type} (d : List (String × α)) (k k' : String)
    (v : α) (hne : k' ≠ k) : getParam (setParam d k v) k' = getParam d k' := by
  unfold setParam getParam
  by_cases hany : d.any (fun p => p.1 == k) = true
  · rw [if_pos hany, find_map_overwrite_ne d k k' v hne]
  · rw [if_neg hany, find_append_single_ne d k k' v hne]

/-- Caller keys win: after dict.update, a key bound in upd has its upd value
and any other key keeps its base value.  upd is a Python dict, so its keys
are distinct. -/
theorem getParam_dictUpdate {α : Type} (base upd : List (String × α))
    (hnodup : (upd.map (fun p => p.1)).Nodup) (k : String) :
    getParam (dictUpdate base upd) k =
      match getParam upd k with
      | some v => some v
      | none => getParam base k := by
  induction upd generalizing base with
  | nil => rfl
  | cons x xs ih =>
      have hx_notin : x.1 ∉ xs.map (fun p => p.1) := by
        have := hnodup
        simp only [List.map_cons, List.nodup_cons] at this
        exact this.1
      have hxs_nodup : (xs.map (fun p => p.1)).Nodup := by
        have := hnodup
        simp only [List.map_cons, List.nodup_cons] at this
        exact this.2
      have hstep : dictUpdate base (x :: xs) = dictUpdate (setParam base x.1 x.2) xs := rfl
      rw [hstep, ih (setParam base x.1 x.2) hxs_nodup]
      by_cases hk : k = x.1
      · have hfindxs : xs.find? (fun p => p.1 == k) = none := by
          rw [List.find?_eq_none]
          intro p hp hcontra
          apply hx_notin
          have hpk : p.1 = k := by simpa using hcontra
          have hmem : p.1 ∈ xs.map (fun q => q.1) :=
            List.mem_map_of_mem (fun q => q.1) hp
          rw [hpk, hk] at hmem
          exact hmem
        have hupd_k : getParam (x :: xs) k = some x.2 := by
          unfold getParam
          rw [List.find?_cons_of_pos (p := fun (q : String × α) => q.1 == k) _
            (show (x.1 == k) = true by simp [hk])]
          rfl
        have hxs_k : getParam xs k = none := by
          unfold getParam
          rw [hfindxs]
          rfl
        rw [hxs_k, hupd_k, hk, getParam_setParam_self]
      · have hupd_k : getParam (x :: xs) k = getParam xs k := by
          unfold getParam
          have hxne : ¬ (x.1 == k) = true := by
            intro h
            exact hk (eq_of_beq h).symm
          rw [List.find?_cons_of_neg (p := fun (q : String × α) => q.1 == k) _ hxne]
        rw [hupd_k, getParam_setParam_ne base x.1 k x.2 hk]

/-- C4 counterexample: an algorithm spec that is available but has no bound
runner.  Submitting it does not return an error before a job object exists:
start_job accepts it and creates a queued job, because ensure_algorithm
checks only the availability flag. -/
theorem start_job_accepts_runnerless_spec :
    (AlgorithmSpecM.run
        { name := "x", available := true, runner := none,
          parameters := ([] : List (String × Nat)) } (0 : Nat)
        ([] : List (String × Nat)) =
      (Except.error "Algorithm x does not define a runner" : Except String Nat)) ∧
    start_job
        ([("x", { name := "x", available := true, runner := none,
                  parameters := [] })] :
          List (String × AlgorithmSpecM Nat Nat Nat)) "x" [] =
      Except.ok { algorithm := "x", params := [], status := JobStatus.queued } := by
  refine ⟨rfl, rfl⟩

/-- C4 amended: run fails with Unavailable before touching the input data
(for every data value) when the spec is unavailable or has no runner, and an
available spec with a runner executes it on the caller params merged over the
declared defaults with caller keys winning; submission rejects an unavailable
algorithm before any job object is created, but an available spec with no
bound runner is accepted at submission (a queued job is created) and only
fails later, during execution, with the Unavailable message. -/
theorem algorithm_run_spec {α β γ : Type}
    (spec : AlgorithmSpecM α β γ) (data : β) (params : List (String × α)) :
    (spec.available = false →
      spec.run data params =
        Except.error ("Algorithm " ++ spec.name ++ " is not available in this environment")) ∧
    (spec.available = true → spec.runner = none →
      spec.run data params =
        Except.error ("Algorithm " ++ spec.name ++ " does not define a runner")) ∧
    (∀ f, spec.available = true → spec.runner = some f →
      spec.run data params =
        Except.ok (f data (dictUpdate spec.parameters params))) ∧
    ((params.map (fun p => p.1)).Nodup → ∀ k,
      getParam (dictUpdate spec.parameters params) k =
        match getParam params k with
        | some v => some v
        | none => getParam spec.parameters k) ∧
    (∀ reg : List (String × AlgorithmSpecM α β γ),
      (reg.find? (fun p => p.1 == spec.name)).map (fun p => p.2) = some spec →
      spec.available = false →
      start_job reg spec.name params =
        Except.error ("Algorithm " ++ spec.name ++ " is not available")) ∧
    (∀ reg : List (String × AlgorithmSpecM α β γ),
      (reg.find? (fun p => p.1 == spec.name)).map (fun p => p.2) = some spec →
      spec.available = true → spec.runner = none →
      start_job reg spec.name params =
        Except.ok { algorithm := spec.name, params := params,
                    status := JobStatus.queued } ∧
      execute_outcome spec data params =
        (JobStatus.failed,
          some ("Algorithm " ++ spec.name ++ " does not define a runner"))) := by
  refine ⟨?_, ?_, ?_, ?_, ?_, ?_⟩
  · intro hav
    unfold AlgorithmSpecM.run
    rw [if_pos hav]
  · intro hav hrun
    unfold AlgorithmSpecM.run
    rw [if_neg (by rw [hav]; simp), hrun]
  · intro f hav hrun
    unfold AlgorithmSpecM.run
    rw [if_neg (by rw [hav]; simp), hrun]
  · intro hnodup k
    exact getParam_dictUpdate spec.parameters params hnodup k
  · intro reg hfind hav
    have hens : ensure_algorithm reg spec.name =
        Except.error ("Algorithm " ++ spec.name ++ " is not available") := by
      unfold ensure_algorithm
      rw [hfind]
      show (if spec.available = false then
          Except.error ("Algorithm " ++ spec.name ++ " is not available")
        else Except.ok spec) = _
      rw [if_pos hav]
    unfold start_job
    rw [hens]
  · intro reg hfind hav hrun
    have hens : ensure_algorithm reg spec.name = Except.ok spec := by
      unfold ensure_algorithm
      rw [hfind]
      show (if spec.available = false then
          Except.error ("Algorithm " ++ spec.name ++ " is not available")
        else Except.ok spec) = _
      rw [if_neg (by rw [hav]; simp)]
    constructor
    · unfold start_job
      rw [hens]
    · unfold execute_outcome AlgorithmSpecM.run
      rw [if_neg (by rw [hav]; simp), hrun]

/-- Witness for the C4 amended theorem: a disabled spec whose run on the
block [0] with empty params errors with the Unavailable message. -/
theorem algorithm_run_spec_witness :
    AlgorithmSpecM.run
        { name := "torchbci-jims", available := false, runner := none,
          parameters := ([] : List (String × Nat)) } (5 : Nat) [] =
      (Except.error
        "Algorithm torchbci-jims is not available in this environment" :
        Except String Nat) :=
  (algorithm_run_spec
    { name := "torchbci-jims", available := false, runner := none,
      parameters := ([] : List (String × Nat)) } (5 : Nat) []).1 rfl

/-! Precomputed spike navigation (src/api.py lines 636-706). -/

/-- spike_times_data once loaded: one global list of times applied to every
channel, or a per-channel mapping. -/
inductive SpikeSource
  | globalTimes (ts : List Int)
  | perChannel (m : List (Int × List Int))

/-- The collection step of navigate_spike (src/api.py lines 651-665): a
global array is used whole regardless of the requested channels; a mapping
contributes, in request order, the lists of the requested channels that are
present. -/
def collectSpikes (src : SpikeSource) (channels : List Int) : List Int :=
  match src with
  | SpikeSource.globalTimes ts => ts
  | SpikeSource.perChannel m =>
      channels.foldr (fun c acc =>
        match (m.find? (fun p => p.1 == c)).map (fun p => p.2) with
        | some l => l ++ acc
        | none => acc) []

/-- Insert into a strictly ascending list, skipping duplicates. -/
def insertUnique (x : Int) : List Int → List Int
  | [] => [x]
  | y :: ys =>
      if x < y then x :: y :: ys
      else if x = y then y :: ys
      else y :: insertUnique x ys

/-- sorted(set(l)) (src/api.py line 671): the distinct elements of l in
ascending order. -/
def sortedDedup (l : List Int) : List Int :=
  l.foldr insertUnique []

inductive NavDirection
  | next | prev
deriving DecidableEq

/-- The next-direction search of navigate_spike (src/api.py lines 675-683):
first time strictly after t, wrapping to the first (smallest) time. -/
def navCollectNext (u : List Int) (t : Int) : Int :=
  match u.find? (fun x => decide (t < x)) with
  | some r => r
  | none => u.headD 0

/-- The prev-direction search of navigate_spike (src/api.py lines 684-692):
last time strictly before t, wrapping to the last (largest) time. -/
def navCollectPrev (u : List Int) (t : Int) : Int :=
  match u.reverse.find? (fun x => decide (x < t)) with
  | some r => r
  | none => u.getLastD 0

/-- navigate_spike (src/api.py lines 636-706). -/
def navigate_spike (src : Option SpikeSource) (channels : List Int)
    (currentTime : Int) (direction : NavDirection) : Except String Int :=
  match src with
  | none => Except.error "No spike times loaded"
  | some s =>
      let allSpikes := collectSpikes s channels
      if allSpikes = [] then Except.error "No spikes found"
      else
        match direction with
        | NavDirection.next =>
            Except.ok (navCollectNext (sortedDedup allSpikes) currentTime)
        | NavDirection.prev =>
            Except.ok (navCollectPrev (sortedDedup allSpikes) currentTime)

theorem mem_insertUnique (x a : Int) (l : List Int) :
    a ∈ insertUnique x l ↔ a = x ∨ a ∈ l := by
  induction l with
  | nil => simp [insertUnique]
  | cons y ys ih =>
      unfold insertUnique
      by_cases h1 : x < y
      · simp [h1]
      · rw [if_neg h1]
        by_cases h2 : x = y
        · rw [if_pos h2]
          subst h2
          simp only [List.mem_cons]
          constructor
          · intro h
            exact Or.inr h
          · rintro (h | h)
            · exact Or.inl (h ▸ rfl)
            · exact h
        · rw [if_neg h2]
          simp only [List.mem_cons, ih]
          tauto

theorem pairwise_insertUnique (x : Int) (l : List Int)
    (hl : l.Pairwise (· < ·)) : (insertUnique x l).Pairwise (· < ·) := by
  induction l with
  | nil => simp [insertUnique]
  | cons y ys ih =>
      rw [List.pairwise_cons] at hl
      unfold insertUnique
      by_cases h1 : x < y
      · rw [if_pos h1, List.pairwise_cons]
        refine ⟨?_, List.pairwise_cons.mpr hl⟩
        intro b hb
        rcases List.mem_cons.mp hb with hby | hbys
        · exact hby ▸ h1
        · exact lt_trans h1 (hl.1 b hbys)
      · rw [if_neg h1]
        by_cases h2 : x = y
        · rw [if_pos h2]
          exact List.pairwise_cons.mpr hl
        · rw [if_neg h2]
          have hyx : y < x := by omega
          rw [List.pairwise_cons]
          refine ⟨?_, ih hl.2⟩
          intro b hb
          rcases (mem_insertUnique x b ys).mp hb with hbx | hbys
          · exact hbx ▸ hyx
          · exact hl.1 b hbys

theorem sortedDedup_pairwise (l : List Int) :
    (sortedDedup l).Pairwise (· < ·) := by
  induction l with
  | nil => simp [sortedDedup]
  | cons x xs ih => exact pairwise_insertUnique x (sortedDedup xs) ih

theorem mem_sortedDedup (l : List Int) (a : Int) :
    a ∈ sortedDedup l ↔ a ∈ l := by
  induction l with
  | nil => simp [sortedDedup]
  | cons x xs ih =>
      show a ∈ insertUnique x (sortedDedup xs) ↔ _
      rw [mem_insertUnique, ih]
      simp

theorem sortedDedup_ne_nil (l : List Int) (hne : l ≠ []) :
    sortedDedup l ≠ [] := by
  obtain ⟨x, xs, hx⟩ := List.exists_cons_of_ne_nil hne
  intro hcontra
  have : x ∈ sortedDedup l := (mem_sortedDedup l x).mpr (hx ▸ List.mem_cons_self x xs)
  rw [hcontra] at this
  exact List.not_mem_nil x this

theorem find_first_gt (l : List Int) (t r : Int) (hl : l.Pairwise (· < ·))
    (hfind : l.find? (fun x => decide (t < x)) = some r) :
    r ∈ l ∧ t < r ∧ ∀ y ∈ l, t < y → r ≤ y := by
  induction l with
  | nil => simp at hfind
  | cons y ys ih =>
      rw [List.pairwise_cons] at hl
      by_cases hy : t < y
      · rw [List.find?_cons_of_pos _ (by simpa using hy)] at hfind
        have hry : r = y := by simpa using hfind.symm
        subst hry
        refine ⟨List.mem_cons_self r ys, hy, ?_⟩
        intro z hz _
        rcases List.mem_cons.mp hz with hzy | hzys
        · exact le_of_eq hzy.symm
        · exact le_of_lt (hl.1 z hzys)
      · rw [List.find?_cons_of_neg _ (by simpa using hy)] at hfind
        obtain ⟨hmem, hgt, hmin⟩ := ih hl.2 hfind
        refine ⟨List.mem_cons_of_mem y hmem, hgt, ?_⟩
        intro z hz hzgt
        rcases List.mem_cons.mp hz with hzy | hzys
        · exact absurd (hzy ▸ hzgt) hy
        · exact hmin z hzys hzgt

theorem find_first_lt_desc (l : List Int) (t r : Int)
    (hl : l.Pairwise (fun a b => b < a))
    (hfind : l.find? (fun x => decide (x < t)) = some r) :
    r ∈ l ∧ r < t ∧ ∀ y ∈ l, y < t → y ≤ r := by
  induction l with
  | nil => simp at hfind
  | cons y ys ih =>
      rw [List.pairwise_cons] at hl
      by_cases hy : y < t
      · rw [List.find?_cons_of_pos _ (by simpa using hy)] at hfind
        have hry : r = y := by simpa using hfind.symm
        subst hry
        refine ⟨List.mem_cons_self r ys, hy, ?_⟩
        intro z hz _
        rcases List.mem_cons.mp hz with hzy | hzys
        · exact le_of_eq hzy
        · exact le_of_lt (hl.1 z hzys)
      · rw [List.find?_cons_of_neg _ (by simpa using hy)] at hfind
        obtain ⟨hmem, hlt, hmax⟩ := ih hl.2 hfind
        refine ⟨List.mem_cons_of_mem y hmem, hlt, ?_⟩
        intro z hz hzlt
        rcases List.mem_cons.mp hz with hzy | hzys
        · exact absurd (hzy ▸ hzlt) hy
        · exact hmax z hzys hzlt

theorem sorted_head_min (l : List Int) (hl : l.Pairwise (· < ·))
    (hne : l ≠ []) : l.headD 0 ∈ l ∧ ∀ y ∈ l, l.headD 0 ≤ y := by
  obtain ⟨x, xs, hx⟩ := List.exists_cons_of_ne_nil hne
  subst hx
  rw [List.pairwise_cons] at hl
  refine ⟨List.mem_cons_self x xs, ?_⟩
  intro y hy
  rcases List.mem_cons.mp hy with hyx | hyxs
  · exact le_of_eq hyx.symm
  · exact le_of_lt (hl.1 y hyxs)

theorem getLastD_eq_reverse_headD (l : List Int) :
    l.getLastD 0 = l.reverse.headD 0 := by
  rw [List.getLastD_eq_getLast?, List.headD_eq_head?, List.head?_reverse]

theorem desc_head_max (l : List Int) (hl : l.Pairwise (fun a b => b < a))
    (hne : l ≠ []) : l.headD 0 ∈ l ∧ ∀ y ∈ l, y ≤ l.headD 0 := by
  obtain ⟨x, xs, hx⟩ := List.exists_cons_of_ne_nil hne
  subst hx
  rw [List.pairwise_cons] at hl
  refine ⟨List.mem_cons_self x xs, ?_⟩
  intro y hy
  rcases List.mem_cons.mp hy with hyx | hyxs
  · exact le_of_eq hyx
  · exact le_of_lt (hl.1 y hyxs)

/-- If u is strictly ascending and nonempty, navCollectNext returns the
least element greater than t when one exists, and the least element of u
otherwise. -/
theorem navCollectNext_spec (u : List Int) (t : Int)
    (hu : u.Pairwise (· < ·)) (hne : u ≠ []) :
    navCollectNext u t ∈ u ∧
      ((t < navCollectNext u t ∧ ∀ y ∈ u, t < y → navCollectNext u t ≤ y) ∨
       ((∀ y ∈ u, y ≤ t) ∧ ∀ y ∈ u, navCollectNext u t ≤ y)) := by
  unfold navCollectNext
  cases hfind : u.find? (fun x => decide (t < x)) with
  | some r =>
      obtain ⟨hmem, hgt, hmin⟩ := find_first_gt u t r hu hfind
      exact ⟨hmem, Or.inl ⟨hgt, hmin⟩⟩
  | none =>
      have hall : ∀ y ∈ u, y ≤ t := by
        intro y hy
        have := List.find?_eq_none.mp hfind y hy
        simpa using this
      obtain ⟨hmem, hmin⟩ := sorted_head_min u hu hne
      exact ⟨hmem, Or.inr ⟨hall, hmin⟩⟩

/-- If u is strictly ascending and nonempty, navCollectPrev returns the
greatest element less than t when one exists, and the greatest element of u
otherwise. -/
theorem navCollectPrev_spec (u : List Int) (t : Int)
    (hu : u.Pairwise (· < ·)) (hne : u ≠ []) :
    navCollectPrev u t ∈ u ∧
      ((navCollectPrev u t < t ∧ ∀ y ∈ u, y < t → y ≤ navCollectPrev u t) ∨
       ((∀ y ∈ u, t ≤ y) ∧ ∀ y ∈ u, y ≤ navCollectPrev u t)) := by
  have hrev : u.reverse.Pairwise (fun a b => b < a) := by
    rw [List.pairwise_reverse]
    exact hu
  have hrevne : u.reverse ≠ [] := by
    simpa using hne
  unfold navCollectPrev
  cases hfind : u.reverse.find? (fun x => decide (x < t)) with
  | some r =>
      obtain ⟨hmem, hlt, hmax⟩ := find_first_lt_desc u.reverse t r hrev hfind
      rw [List.mem_reverse] at hmem
      refine ⟨hmem, Or.inl ⟨hlt, ?_⟩⟩
      intro y hy hylt
      exact hmax y (List.mem_reverse.mpr hy) hylt
  | none =>
      have hall : ∀ y ∈ u, t ≤ y := by
        intro y hy
        have := List.find?_eq_none.mp hfind y (List.mem_reverse.mpr hy)
        simpa using this
      obtain ⟨hmem, hmax⟩ := desc_head_max u.reverse hrev hrevne
      rw [List.mem_reverse] at hmem
      rw [getLastD_eq_reverse_headD]
      refine ⟨hmem, Or.inr ⟨hall, ?_⟩⟩
      intro y hy
      exact hmax y (List.mem_reverse.mpr hy)

theorem navigate_spike_some_next (s : SpikeSource) (channels : List Int)
    (t : Int) (hne : collectSpikes s channels ≠ []) :
    navigate_spike (some s) channels t NavDirection.next =
      Except.ok (navCollectNext (sortedDedup (collectSpikes s channels)) t) := by
  show (if collectSpikes s channels = [] then Except.error "No spikes found"
    else Except.ok (navCollectNext (sortedDedup (collectSpikes s channels)) t)) = _
  rw [if_neg hne]

theorem navigate_spike_some_prev (s : SpikeSource) (channels : List Int)
    (t : Int) (hne : collectSpikes s channels ≠ []) :
    navigate_spike (some s) channels t NavDirection.prev =
      Except.ok (navCollectPrev (sortedDedup (collectSpikes s channels)) t) := by
  show (if collectSpikes s channels = [] then Except.error "No spikes found"
    else Except.ok (navCollectPrev (sortedDedup (collectSpikes s channels)) t)) = _
  rw [if_neg hne]

/-- C6: with an active precomputed source whose collected time set is
nonempty, navigate_spike deduplicates and sorts the collected times
ascending, then for next returns the least collected time strictly greater
than currentTime, wrapping to the least collected time when none exists, and
for prev the greatest collected time strictly less than currentTime,
wrapping to the greatest; with times 3, 10, 17, prev from 10 returns 3 and
next from 17 wraps to 3. -/
theorem navigate_spike_spec (s : SpikeSource) (channels : List Int) (t : Int)
    (hne : collectSpikes s channels ≠ []) :
    ((sortedDedup (collectSpikes s channels)).Pairwise (· < ·) ∧
      (∀ a, a ∈ sortedDedup (collectSpikes s channels) ↔
        a ∈ collectSpikes s channels)) ∧
    (∃ r, navigate_spike (some s) channels t NavDirection.next = Except.ok r ∧
      r ∈ collectSpikes s channels ∧
      ((t < r ∧ ∀ y ∈ collectSpikes s channels, t < y → r ≤ y) ∨
       ((∀ y ∈ collectSpikes s channels, y ≤ t) ∧
        ∀ y ∈ collectSpikes s channels, r ≤ y))) ∧
    (∃ r, navigate_spike (some s) channels t NavDirection.prev = Except.ok r ∧
      r ∈ collectSpikes s channels ∧
      ((r < t ∧ ∀ y ∈ collectSpikes s channels, y < t → y ≤ r) ∨
       ((∀ y ∈ collectSpikes s channels, t ≤ y) ∧
        ∀ y ∈ collectSpikes s channels, y ≤ r))) ∧
    navigate_spike (some (SpikeSource.globalTimes [3, 10, 17])) [] 10
        NavDirection.prev = Except.ok 3 ∧
    navigate_spike (some (SpikeSource.globalTimes [3, 10, 17])) [] 17
        NavDirection.next = Except.ok 3 := by
  have hu := sortedDedup_pairwise (collectSpikes s channels)
  have hune := sortedDedup_ne_nil (collectSpikes s channels) hne
  refine ⟨⟨hu, fun a => mem_sortedDedup (collectSpikes s channels) a⟩, ?_, ?_, rfl, rfl⟩
  · obtain ⟨hmem, hcase⟩ :=
      navCollectNext_spec (sortedDedup (collectSpikes s channels)) t hu hune
    refine ⟨navCollectNext (sortedDedup (collectSpikes s channels)) t,
      navigate_spike_some_next s channels t hne,
      (mem_sortedDedup (collectSpikes s channels) _).mp hmem, ?_⟩
    rcases hcase with ⟨hgt, hmin⟩ | ⟨hall, hmin⟩
    · refine Or.inl ⟨hgt, ?_⟩
      intro y hy hty
      exact hmin y ((mem_sortedDedup (collectSpikes s channels) y).mpr hy) hty
    · refine Or.inr ⟨?_, ?_⟩
      · intro y hy
        exact hall y ((mem_sortedDedup (collectSpikes s channels) y).mpr hy)
      · intro y hy
        exact hmin y ((mem_sortedDedup (collectSpikes s channels) y).mpr hy)
  · obtain ⟨hmem, hcase⟩ :=
      navCollectPrev_spec (sortedDedup (collectSpikes s channels)) t hu hune
    refine ⟨navCollectPrev (sortedDedup (collectSpikes s channels)) t,
      navigate_spike_some_prev s channels t hne,
      (mem_sortedDedup (collectSpikes s channels) _).mp hmem, ?_⟩
    rcases hcase with ⟨hlt, hmax⟩ | ⟨hall, hmax⟩
    · refine Or.inl ⟨hlt, ?_⟩
      intro y hy hyt
      exact hmax y ((mem_sortedDedup (collectSpikes s channels) y).mpr hy) hyt
    · refine Or.inr ⟨?_, ?_⟩
      · intro y hy
        exact hall y ((mem_sortedDedup (collectSpikes s channels) y).mpr hy)
      · intro y hy
        exact hmax y ((mem_sortedDedup (collectSpikes s channels) y).mpr hy)

/-- Witness for the C6 theorem: the spec's concrete navigation example,
prev from 10 over times 3, 10, 17 lands on 3. -/
theorem navigate_spike_spec_witness :
    navigate_spike (some (SpikeSource.globalTimes [3, 10, 17])) [] 10
      NavDirection.prev = Except.ok 3 :=
  (navigate_spike_spec (SpikeSource.globalTimes [3, 10, 17]) [] 10
    (by decide)).2.2.2.1

/-! Windowed filtering (src/api.py lines 108-155, 376-396 and 736-755). -/

/-- numpy slice row[s:e] on a rational row, for non-negative Nat bounds. -/
def rowSliceQ (row : List ℚ) (s e : Nat) : List ℚ :=
  (row.take e).drop s

/-- np.mean: sum over length (the code only takes means of nonempty
segments). -/
def qmean (l : List ℚ) : ℚ :=
  l.sum / l.length

/-- apply_filter (src/api.py lines 108-155).  The Butterworth design and the
filtfilt call are a fallible core computation per filter type (they sit in a
try/except); an unknown filter type returns the data unchanged, and any core
failure is caught and also returns the data unchanged. -/
def apply_filter (core : String → List ℚ → Option (List ℚ)) (ft : String)
    (data : List ℚ) : List ℚ :=
  if ft = "highpass" ∨ ft = "lowpass" ∨ ft = "bandpass" then
    match core ft data with
    | some r => r
    | none => data
  else data

/-- The edge-padded filtered slice before any DC restoration: pad the window
by 100 samples on each side clamped to the buffer, filter, and slice back to
the requested length (src/api.py lines 377-391 and 737-751). -/
def dcStrippedSegment (core : String → List ℚ → Option (List ℚ)) (ft : String)
    (row : List ℚ) (s e : Nat) : List ℚ :=
  let chData := rowSliceQ row s e
  let bufStart := s - 100
  let bufEnd := min row.length (e + 100)
  let buffered := rowSliceQ row bufStart bufEnd
  let fb := apply_filter core ft buffered
  let offset := s - bufStart
  (fb.drop offset).take chData.length

/-- The per-channel filtered segment served by _get_real_data (src/api.py
lines 376-396) and get_precomputed_spike_data (lines 736-755): the padded
filter output sliced back, plus the mean of the unpadded raw segment for the
DC-removing filter types. -/
def filteredSegment (core : String → List ℚ → Option (List ℚ)) (ft : String)
    (row : List ℚ) (s e : Nat) : List ℚ :=
  let chData := rowSliceQ row s e
  let originalMean := qmean chData
  let fd := dcStrippedSegment core ft row s e
  if ft = "highpass" ∨ ft = "bandpass" then fd.map (fun x => x + originalMean)
  else fd

theorem qmean_map_add (l : List ℚ) (c : ℚ) (hne : l ≠ []) :
    qmean (l.map (fun x => x + c)) = qmean l + c := by
  unfold qmean
  have hlen : (l.map (fun x => x + c)).length = l.length := List.length_map l _
  have hsum : ∀ m : List ℚ, (m.map (fun x => x + c)).sum = m.sum + m.length * c := by
    intro m
    induction m with
    | nil => simp
    | cons x xs ih =>
        simp only [List.map_cons, List.sum_cons, ih, List.length_cons]
        push_cast
        ring
  rw [hlen, hsum l]
  have hlenne : (l.length : ℚ) ≠ 0 := by
    have : l.length ≠ 0 := fun h => hne (List.length_eq_zero.mp h)
    exact_mod_cast this
  field_simp
  ring

theorem dcStrippedSegment_length (core : String → List ℚ → Option (List ℚ))
    (ft : String) (row : List ℚ) (s e : Nat)
    (hcore : ∀ t l, (apply_filter core t l).length = l.length)
    (hs : s ≤ e) (he : e ≤ row.length) :
    (dcStrippedSegment core ft row s e).length = e - s := by
  unfold dcStrippedSegment rowSliceQ
  simp only [List.length_take, List.length_drop, hcore]
  omega

/-- C7: for highpass and bandpass the returned segment is exactly the
edge-padded filter output sliced to the requested range plus the mean of the
unpadded raw segment, so its mean is the raw segment's mean shifted by the
mean of the DC-stripped slice (zero up to filter ripple); for lowpass no
offset is ever added: the returned segment is the sliced filter output
itself. -/
theorem filteredSegment_baseline (core : String → List ℚ → Option (List ℚ))
    (row : List ℚ) (s e : Nat)
    (hcore : ∀ t l, (apply_filter core t l).length = l.length)
    (hs : s < e) (he : e ≤ row.length) :
    (filteredSegment core "highpass" row s e =
      (dcStrippedSegment core "highpass" row s e).map
        (fun x => x + qmean (rowSliceQ row s e))) ∧
    (filteredSegment core "bandpass" row s e =
      (dcStrippedSegment core "bandpass" row s e).map
        (fun x => x + qmean (rowSliceQ row s e))) ∧
    (filteredSegment core "lowpass" row s e =
      dcStrippedSegment core "lowpass" row s e) ∧
    (qmean (filteredSegment core "highpass" row s e) =
      qmean (rowSliceQ row s e) +
        qmean (dcStrippedSegment core "highpass" row s e)) ∧
    (qmean (filteredSegment core "bandpass" row s e) =
      qmean (rowSliceQ row s e) +
        qmean (dcStrippedSegment core "bandpass" row s e)) := by
  have hmean : ∀ ft, ft = "highpass" ∨ ft = "bandpass" →
      qmean (filteredSegment core ft row s e) =
        qmean (rowSliceQ row s e) + qmean (dcStrippedSegment core ft row s e) := by
    intro ft hft
    have hfd_ne : dcStrippedSegment core ft row s e ≠ [] := by
      intro hcontra
      have := dcStrippedSegment_length core ft row s e hcore (le_of_lt hs) he
      rw [hcontra] at this
      simp at this
      omega
    have hseg : filteredSegment core ft row s e =
        (dcStrippedSegment core ft row s e).map
          (fun x => x + qmean (rowSliceQ row s e)) := by
      unfold filteredSegment
      rcases hft with h | h <;> rw [h] <;> simp
    rw [hseg, qmean_map_add _ _ hfd_ne]
    ring
  refine ⟨?_, ?_, ?_, hmean "highpass" (Or.inl rfl), hmean "bandpass" (Or.inr rfl)⟩
  · unfold filteredSegment
    simp
  · unfold filteredSegment
    simp
  · unfold filteredSegment
    simp

/-- Witness for the C7 theorem: the identity core on a four-sample row with
window [1, 3); the lowpass segment carries no added offset. -/
theorem filteredSegment_baseline_witness :
    filteredSegment (fun _ l => some l) "lowpass" [1, 2, 3, 4] 1 3 =
      dcStrippedSegment (fun _ l => some l) "lowpass" [1, 2, 3, 4] 1 3 := by
  have h := filteredSegment_baseline (fun _ l => some l) [1, 2, 3, 4] 1 3
    (by
      intro t l
      unfold apply_filter
      by_cases ht : t = "highpass" ∨ t = "lowpass" ∨ t = "bandpass"
      · rw [if_pos ht]
      · rw [if_neg ht])
    (by omega) (by simp)
  exact h.2.2.1

/-- C8: a filter-core failure never propagates: apply_filter returns its
input unchanged whenever the core fails (and for unknown filter types), and
with an always-failing core the windowed path still serves a full segment
derived from the raw data — the raw slice plus its own mean for the
DC-removing kinds, the raw slice itself for lowpass — rather than any
request-level error. -/
theorem slice_of_padded_slice (row : List ℚ) (s e : Nat) (hs : s ≤ e)
    (he : e ≤ row.length) :
    ((rowSliceQ row (s - 100) (min row.length (e + 100))).drop (s - (s - 100))).take
      ((rowSliceQ row s e).length) = rowSliceQ row s e := by
  unfold rowSliceQ
  have hlen : ((row.take e).drop s).length = e - s := by
    rw [List.length_drop, List.length_take]
    omega
  rw [hlen, List.drop_drop]
  have h1 : (s - 100) + (s - (s - 100)) = s := by omega
  rw [h1, List.take_drop]
  have h2 : s + (e - s) = e := by omega
  rw [h2, List.take_take]
  have h3 : min e (min row.length (e + 100)) = e := by omega
  rw [h3]

/-- C8: a filter-core failure never propagates: apply_filter returns its
input unchanged whenever the core fails (and for unknown filter types
regardless of the core), and with an always-failing core the windowed path
still serves a full segment derived from the raw data — the raw slice plus
its own mean for the DC-removing kinds, the raw slice itself for lowpass —
never a request-level error. -/
theorem apply_filter_fallback (core : String → List ℚ → Option (List ℚ))
    (ft : String) (data : List ℚ) (row : List ℚ) (s e : Nat)
    (hfail : ∀ t l, core t l = none) (hs : s ≤ e) (he : e ≤ row.length) :
    apply_filter core ft data = data ∧
    (¬ (ft = "highpass" ∨ ft = "lowpass" ∨ ft = "bandpass") →
      ∀ core2, apply_filter core2 ft data = data) ∧
    dcStrippedSegment core ft row s e = rowSliceQ row s e ∧
    filteredSegment core "highpass" row s e =
      (rowSliceQ row s e).map (fun x => x + qmean (rowSliceQ row s e)) ∧
    filteredSegment core "lowpass" row s e = rowSliceQ row s e := by
  have happly : ∀ t l, apply_filter core t l = l := by
    intro t l
    unfold apply_filter
    rw [hfail]
    by_cases ht : t = "highpass" ∨ t = "lowpass" ∨ t = "bandpass"
    · rw [if_pos ht]
    · rw [if_neg ht]
  have hstripped : ∀ t, dcStrippedSegment core t row s e = rowSliceQ row s e := by
    intro t
    simp only [dcStrippedSegment]
    rw [happly]
    exact slice_of_padded_slice row s e hs he
  refine ⟨happly ft data, ?_, hstripped ft, ?_, ?_⟩
  · intro hun core2
    unfold apply_filter
    rw [if_neg hun]
  · simp only [filteredSegment]
    rw [hstripped]
    simp
  · simp only [filteredSegment]
    rw [hstripped]
    simp

/-- Witness for the C8 theorem: with a core that always fails on the row
[1, 2, 3, 4] over the window [1, 3), highpass serves the raw slice shifted
by its own mean and apply_filter returns its input unchanged. -/
theorem apply_filter_fallback_witness :
    apply_filter (fun _ _ => none) "highpass" [5, 6] = [5, 6] ∧
    filteredSegment (fun _ _ => none) "lowpass" [1, 2, 3, 4] 1 3 =
      rowSliceQ [1, 2, 3, 4] 1 3 := by
  have h := apply_filter_fallback (fun _ _ => none) "highpass" [5, 6]
    [1, 2, 3, 4] 1 3 (fun _ _ => rfl) (by omega) (by simp)
  exact ⟨h.1, h.2.2.2.2⟩

/-! Threshold spike detection (src/api.py lines 411-439). -/

/-- is_spike (src/api.py lines 411-417): sample at or below the threshold,
at or above it when the signal is inverted. -/
def isSpikeMask (samples : List Int) (th : Int) (inverted : Bool) : List Bool :=
  samples.map (fun v => if inverted then decide (v ≥ th) else decide (v ≤ th))

/-- np.argmin: index of the first minimum. -/
def argminIdx : List Int → Nat
  | [] => 0
  | [_] => 0
  | x :: y :: ys =>
      let j := argminIdx (y :: ys)
      if x ≤ (y :: ys).getD j 0 then 0 else j + 1

/-- np.argmax: index of the first maximum. -/
def argmaxIdx : List Int → Nat
  | [] => 0
  | [_] => 0
  | x :: y :: ys =>
      let j := argmaxIdx (y :: ys)
      if x ≥ (y :: ys).getD j 0 then 0 else j + 1

/-- The run-closing loop of _get_real_data (src/api.py lines 420-439),
recursing over the remaining mask entries with the current absolute index i;
n is len(is_spike). -/
def peakLoop (samples : List Int) (inverted : Bool) (n : Nat) :
    List Bool → Nat → Bool → Nat → List Nat
  | [], _, _, _ => []
  | b :: bs, i, inSpike, startIdx =>
      if b = true ∧ inSpike = false then
        peakLoop samples inverted n bs (i + 1) true i
      else if (b = false ∨ i = n - 1) ∧ inSpike = true then
        let endIdx := if b = false then i else i + 1
        let seg := (samples.take endIdx).drop startIdx
        (if seg.length > 0 then
          [startIdx + (if inverted then argmaxIdx seg else argminIdx seg)]
         else []) ++ peakLoop samples inverted n bs (i + 1) false startIdx
      else peakLoop samples inverted n bs (i + 1) inSpike startIdx

/-- spike_peaks as served (src/api.py lines 419-439): no threshold means no
peaks, otherwise the loop over the whole window. -/
def spikePeaks (samples : List Int) (th : Option Int) (inverted : Bool) :
    List Nat :=
  match th with
  | none => []
  | some t =>
      peakLoop samples inverted samples.length (isSpikeMask samples t inverted)
        0 false 0

/-- Maximal runs of true in a mask, as (start, stop-exclusive) pairs of
absolute indices, the reference description of what the loop extracts. -/
def maximalRunsAux : List Bool → Nat → List (Nat × Nat)
  | [], _ => []
  | false :: bs, i => maximalRunsAux bs (i + 1)
  | true :: bs, i =>
      (i, i + (bs.takeWhile (fun x => x = true)).length + 1) ::
        maximalRunsAux (bs.dropWhile (fun x => x = true))
          (i + (bs.takeWhile (fun x => x = true)).length + 1)
termination_by l _ => l.length
decreasing_by
  · simp only [List.length_cons]
    omega
  · simp only [List.length_cons]
    have h := (List.dropWhile_sublist (l := bs) (fun x => x = true)).length_le
    omega

def maximalRuns (mask : List Bool) : List (Nat × Nat) :=
  maximalRunsAux mask 0

/-- The peak the loop reports for a closed run [s, e): the start plus the
first-extremum index inside the run's segment. -/
def peakOf (samples : List Int) (inverted : Bool) (r : Nat × Nat) : Nat :=
  r.1 + (if inverted then argmaxIdx ((samples.take r.2).drop r.1)
         else argminIdx ((samples.take r.2).drop r.1))

/-- The peaks of all maximal runs except those starting at the final sample
(which the loop never closes). -/
def runPeaks (samples : List Int) (inverted : Bool) (rest : List Bool)
    (i : Nat) : List Nat :=
  ((maximalRunsAux rest i).filter
    (fun r => decide (r.1 + 1 ≠ samples.length))).map (peakOf samples inverted)

/-- What the loop computes from an arbitrary intermediate state: pending run
closed first when inside a run (a pending run that reaches the end of the
mask without a further entry is dropped when it would start at the final
index), then the peaks of the remaining runs. -/
def loopSpec (samples : List Int) (inverted : Bool) (rest : List Bool)
    (i : Nat) (inSpike : Bool) (startIdx : Nat) : List Nat :=
  match inSpike, rest with
  | false, _ => runPeaks samples inverted rest i
  | true, [] => []
  | true, _ :: _ =>
      peakOf samples inverted
        (startIdx, i + (rest.takeWhile (fun x => x = true)).length) ::
        runPeaks samples inverted (rest.dropWhile (fun x => x = true))
          (i + (rest.takeWhile (fun x => x = true)).length)

theorem argminIdx_cons (x y : Int) (ys : List Int) :
    argminIdx (x :: y :: ys) =
      if x ≤ (y :: ys).getD (argminIdx (y :: ys)) 0 then 0
      else argminIdx (y :: ys) + 1 := rfl

theorem argmaxIdx_cons (x y : Int) (ys : List Int) :
    argmaxIdx (x :: y :: ys) =
      if x ≥ (y :: ys).getD (argmaxIdx (y :: ys)) 0 then 0
      else argmaxIdx (y :: ys) + 1 := rfl

theorem argminIdx_lt_length : ∀ (l : List Int), l ≠ [] → argminIdx l < l.length := by
  intro l
  induction l with
  | nil => intro h; exact absurd rfl h
  | cons x xs ih =>
      intro _
      cases xs with
      | nil => simp [argminIdx]
      | cons y ys =>
          rw [argminIdx_cons]
          by_cases hle : x ≤ (y :: ys).getD (argminIdx (y :: ys)) 0
          · rw [if_pos hle]
            simp
          · rw [if_neg hle]
            have htail := ih (by simp)
            simp only [List.length_cons] at htail ⊢
            omega

theorem argmaxIdx_lt_length : ∀ (l : List Int), l ≠ [] → argmaxIdx l < l.length := by
  intro l
  induction l with
  | nil => intro h; exact absurd rfl h
  | cons x xs ih =>
      intro _
      cases xs with
      | nil => simp [argmaxIdx]
      | cons y ys =>
          rw [argmaxIdx_cons]
          by_cases hle : x ≥ (y :: ys).getD (argmaxIdx (y :: ys)) 0
          · rw [if_pos hle]
            simp
          · rw [if_neg hle]
            have htail := ih (by simp)
            simp only [List.length_cons] at htail ⊢
            omega

theorem argminIdx_min : ∀ (l : List Int), ∀ m, m < l.length →
    l.getD (argminIdx l) 0 ≤ l.getD m 0 := by
  intro l
  induction l with
  | nil => intro m hm; simp at hm
  | cons x xs ih =>
      intro m hm
      cases xs with
      | nil =>
          have hm0 : m = 0 := by simpa using Nat.lt_one_iff.mp (by simpa using hm)
          subst hm0
          simp [argminIdx]
      | cons y ys =>
          rw [argminIdx_cons]
          by_cases hle : x ≤ (y :: ys).getD (argminIdx (y :: ys)) 0
          · rw [if_pos hle]
            cases m with
            | zero => simp
            | succ m' =>
                have hm' : m' < (y :: ys).length := by simpa using hm
                have htail := ih m' hm'
                rw [List.getD_cons_zero, List.getD_cons_succ]
                exact le_trans hle htail
          · rw [if_neg hle]
            cases m with
            | zero =>
                rw [List.getD_cons_succ, List.getD_cons_zero]
                exact le_of_lt (lt_of_not_ge hle)
            | succ m' =>
                have hm' : m' < (y :: ys).length := by simpa using hm
                rw [List.getD_cons_succ, List.getD_cons_succ]
                exact ih m' hm'

theorem argmaxIdx_max : ∀ (l : List Int), ∀ m, m < l.length →
    l.getD m 0 ≤ l.getD (argmaxIdx l) 0 := by
  intro l
  induction l with
  | nil => intro m hm; simp at hm
  | cons x xs ih =>
      intro m hm
      cases xs with
      | nil =>
          have hm0 : m = 0 := by simpa using Nat.lt_one_iff.mp (by simpa using hm)
          subst hm0
          simp [argmaxIdx]
      | cons y ys =>
          rw [argmaxIdx_cons]
          by_cases hle : x ≥ (y :: ys).getD (argmaxIdx (y :: ys)) 0
          · rw [if_pos hle]
            cases m with
            | zero => simp
            | succ m' =>
                have hm' : m' < (y :: ys).length := by simpa using hm
                have htail := ih m' hm'
                rw [List.getD_cons_zero, List.getD_cons_succ]
                exact le_trans htail hle
          · rw [if_neg hle]
            cases m with
            | zero =>
                rw [List.getD_cons_succ, List.getD_cons_zero]
                exact le_of_lt (lt_of_not_ge hle)
            | succ m' =>
                have hm' : m' < (y :: ys).length := by simpa using hm
                rw [List.getD_cons_succ, List.getD_cons_succ]
                exact ih m' hm'

theorem takeWhile_dropWhile_length (p : Bool → Bool) (l : List Bool) :
    (l.takeWhile p).length + (l.dropWhile p).length = l.length := by
  conv_rhs => rw [← List.takeWhile_append_dropWhile (p := p) (l := l)]
  rw [List.length_append]

theorem maximalRunsAux_bounds : ∀ (fuel : Nat) (rest : List Bool) (i : Nat),
    rest.length ≤ fuel →
    (∀ r ∈ maximalRunsAux rest i, i ≤ r.1 ∧ r.1 < r.2 ∧ r.2 ≤ i + rest.length) ∧
    (maximalRunsAux rest i).Pairwise (fun a b => a.2 ≤ b.1) := by
  intro fuel
  induction fuel with
  | zero =>
      intro rest i hle
      have hnil : rest = [] := List.length_eq_zero.mp (Nat.le_zero.mp hle)
      subst hnil
      simp [maximalRunsAux]
  | succ f ih =>
      intro rest i hle
      cases rest with
      | nil => simp [maximalRunsAux]
      | cons b bs =>
          have hfuel : bs.length ≤ f := by
            simp only [List.length_cons] at hle
            omega
          cases b with
          | false =>
              have h := ih bs (i + 1) hfuel
              have hrw : maximalRunsAux (false :: bs) i = maximalRunsAux bs (i + 1) := by
                simp [maximalRunsAux]
              rw [hrw]
              refine ⟨?_, h.2⟩
              intro r hr
              have := h.1 r hr
              simp only [List.length_cons]
              omega
          | true =>
              have hk : (bs.takeWhile (fun x => x = true)).length ≤ bs.length :=
                (List.takeWhile_sublist (l := bs) _).length_le
              have hsum := takeWhile_dropWhile_length (fun x => x = true) bs
              have hfuel' : (bs.dropWhile (fun x => x = true)).length ≤ f := by
                have := (List.dropWhile_sublist (l := bs) (fun x => x = true)).length_le
                omega
              have h := ih (bs.dropWhile (fun x => x = true))
                (i + (bs.takeWhile (fun x => x = true)).length + 1) hfuel'
              have hrw : maximalRunsAux (true :: bs) i =
                  (i, i + (bs.takeWhile (fun x => x = true)).length + 1) ::
                    maximalRunsAux (bs.dropWhile (fun x => x = true))
                      (i + (bs.takeWhile (fun x => x = true)).length + 1) := by
                simp [maximalRunsAux]
              rw [hrw]
              constructor
              · intro r hr
                rcases List.mem_cons.mp hr with hhead | htail
                · subst hhead
                  simp only [List.length_cons]
                  omega
                · have := h.1 r htail
                  simp only [List.length_cons]
                  omega
              · rw [List.pairwise_cons]
                refine ⟨?_, h.2⟩
                intro r hr
                exact (h.1 r hr).1

theorem maximalRunsAux_nil (i : Nat) : maximalRunsAux [] i = [] := by
  simp [maximalRunsAux]

theorem maximalRunsAux_false (bs : List Bool) (i : Nat) :
    maximalRunsAux (false :: bs) i = maximalRunsAux bs (i + 1) := by
  simp [maximalRunsAux]

theorem maximalRunsAux_true (bs : List Bool) (i : Nat) :
    maximalRunsAux (true :: bs) i =
      (i, i + (bs.takeWhile (fun x => x = true)).length + 1) ::
        maximalRunsAux (bs.dropWhile (fun x => x = true))
          (i + (bs.takeWhile (fun x => x = true)).length + 1) := by
  simp [maximalRunsAux]

theorem peakLoop_skip_false (samples : List Int) (inverted : Bool) (n : Nat)
    (bs : List Bool) (i startIdx : Nat) :
    peakLoop samples inverted n (false :: bs) i false startIdx =
      peakLoop samples inverted n bs (i + 1) false startIdx := rfl

theorem peakLoop_enter (samples : List Int) (inverted : Bool) (n : Nat)
    (bs : List Bool) (i startIdx : Nat) :
    peakLoop samples inverted n (true :: bs) i false startIdx =
      peakLoop samples inverted n bs (i + 1) true i := rfl

theorem peakLoop_close_false (samples : List Int) (inverted : Bool) (n : Nat)
    (bs : List Bool) (i startIdx : Nat) :
    peakLoop samples inverted n (false :: bs) i true startIdx =
      (if ((samples.take i).drop startIdx).length > 0 then
        [startIdx + (if inverted then argmaxIdx ((samples.take i).drop startIdx)
                     else argminIdx ((samples.take i).drop startIdx))]
       else []) ++ peakLoop samples inverted n bs (i + 1) false startIdx := rfl

theorem peakLoop_cons (samples : List Int) (inverted : Bool) (n : Nat)
    (b : Bool) (bs : List Bool) (i : Nat) (inSpike : Bool) (startIdx : Nat) :
    peakLoop samples inverted n (b :: bs) i inSpike startIdx =
      if b = true ∧ inSpike = false then
        peakLoop samples inverted n bs (i + 1) true i
      else if (b = false ∨ i = n - 1) ∧ inSpike = true then
        (if ((samples.take (if b = false then i else i + 1)).drop startIdx).length > 0 then
          [startIdx +
            (if inverted then
              argmaxIdx ((samples.take (if b = false then i else i + 1)).drop startIdx)
             else
              argminIdx ((samples.take (if b = false then i else i + 1)).drop startIdx))]
         else []) ++ peakLoop samples inverted n bs (i + 1) false startIdx
      else peakLoop samples inverted n bs (i + 1) inSpike startIdx := rfl

theorem peakLoop_true_continue (samples : List Int) (inverted : Bool) (n : Nat)
    (bs : List Bool) (i startIdx : Nat) (hi : i ≠ n - 1) :
    peakLoop samples inverted n (true :: bs) i true startIdx =
      peakLoop samples inverted n bs (i + 1) true startIdx := by
  rw [peakLoop_cons]
  rw [if_neg (by simp), if_neg (by simp [hi])]

theorem peakLoop_true_close_end (samples : List Int) (inverted : Bool) (n : Nat)
    (bs : List Bool) (i startIdx : Nat) (hi : i = n - 1) :
    peakLoop samples inverted n (true :: bs) i true startIdx =
      (if ((samples.take (i + 1)).drop startIdx).length > 0 then
        [startIdx + (if inverted then argmaxIdx ((samples.take (i + 1)).drop startIdx)
                     else argminIdx ((samples.take (i + 1)).drop startIdx))]
       else []) ++ peakLoop samples inverted n bs (i + 1) false startIdx := by
  rw [peakLoop_cons]
  rw [if_neg (by simp), if_pos ⟨Or.inr hi, rfl⟩]
  rfl

/-- The loop is equivalent to closing the pending run and taking the peaks
of the remaining maximal runs, except for runs starting at the final index. -/
theorem peakLoop_char (samples : List Int) (inverted : Bool) :
    ∀ (fuel : Nat) (rest : List Bool) (i : Nat) (inSpike : Bool) (startIdx : Nat),
      rest.length ≤ fuel →
      i + rest.length = samples.length →
      (inSpike = true → startIdx < i) →
      peakLoop samples inverted samples.length rest i inSpike startIdx =
        loopSpec samples inverted rest i inSpike startIdx := by
  intro fuel
  induction fuel with
  | zero =>
      intro rest i inSpike startIdx hfuel hlen hstart
      have hnil : rest = [] := List.length_eq_zero.mp (Nat.le_zero.mp hfuel)
      subst hnil
      cases inSpike with
      | false =>
          show ([] : List Nat) = runPeaks samples inverted [] i
          unfold runPeaks
          rw [maximalRunsAux_nil]
          rfl
      | true => rfl
  | succ f ih =>
      intro rest i inSpike startIdx hfuel hlen hstart
      cases rest with
      | nil =>
          cases inSpike with
          | false =>
              show ([] : List Nat) = runPeaks samples inverted [] i
              unfold runPeaks
              rw [maximalRunsAux_nil]
              rfl
          | true => rfl
      | cons b bs =>
          have hfuel' : bs.length ≤ f := by
            simp only [List.length_cons] at hfuel
            omega
          have hlen' : (i + 1) + bs.length = samples.length := by
            simp only [List.length_cons] at hlen
            omega
          cases inSpike with
          | false =>
              cases b with
              | false =>
                  rw [peakLoop_skip_false,
                    ih bs (i + 1) false startIdx hfuel' hlen' (by simp)]
                  show runPeaks samples inverted bs (i + 1) =
                    runPeaks samples inverted (false :: bs) i
                  unfold runPeaks
                  rw [maximalRunsAux_false]
              | true =>
                  rw [peakLoop_enter,
                    ih bs (i + 1) true i hfuel' hlen' (fun _ => Nat.lt_succ_self i)]
                  cases bs with
                  | nil =>
                      have hN : i + 1 = samples.length := by simpa using hlen'
                      show ([] : List Nat) = runPeaks samples inverted [true] i
                      unfold runPeaks
                      rw [maximalRunsAux_true]
                      simp [maximalRunsAux, List.filter_cons, hN]
                  | cons c cs =>
                      have hne : i + 1 ≠ samples.length := by
                        simp only [List.length_cons] at hlen'
                        omega
                      show peakOf samples inverted
                          (i, (i + 1) + ((c :: cs).takeWhile (fun x => x = true)).length) ::
                          runPeaks samples inverted
                            ((c :: cs).dropWhile (fun x => x = true))
                            ((i + 1) + ((c :: cs).takeWhile (fun x => x = true)).length) =
                        runPeaks samples inverted (true :: c :: cs) i
                      unfold runPeaks
                      rw [maximalRunsAux_true, List.filter_cons,
                        if_pos (by simp [hne]), List.map_cons]
                      have harith : i + 1 + ((c :: cs).takeWhile (fun x => x = true)).length =
                          i + ((c :: cs).takeWhile (fun x => x = true)).length + 1 := by
                        omega
                      rw [harith]
          | true =>
              have hstart' : startIdx < i := hstart rfl
              cases b with
              | false =>
                  have hiN : i < samples.length := by omega
                  rw [peakLoop_close_false]
                  have hlen0 : ((samples.take i).drop startIdx).length > 0 := by
                    rw [List.length_drop, List.length_take]
                    omega
                  rw [if_pos hlen0,
                    ih bs (i + 1) false startIdx hfuel' hlen' (by simp)]
                  have hrp : runPeaks samples inverted (false :: bs) i =
                      runPeaks samples inverted bs (i + 1) := by
                    unfold runPeaks
                    rw [maximalRunsAux_false]
                  show [startIdx +
                      (if inverted then argmaxIdx ((samples.take i).drop startIdx)
                       else argminIdx ((samples.take i).drop startIdx))] ++
                      runPeaks samples inverted bs (i + 1) =
                    peakOf samples inverted
                      (startIdx, i + ((false :: bs).takeWhile (fun x => x = true)).length) ::
                      runPeaks samples inverted
                        ((false :: bs).dropWhile (fun x => x = true))
                        (i + ((false :: bs).takeWhile (fun x => x = true)).length)
                  rw [List.takeWhile_cons_of_neg (by simp),
                    List.dropWhile_cons_of_neg (by simp)]
                  simp only [List.length_nil, Nat.add_zero]
                  rw [hrp]
                  rfl
              | true =>
                  cases bs with
                  | nil =>
                      have hN : i + 1 = samples.length := by simpa using hlen'
                      have hi : i = samples.length - 1 := by omega
                      rw [peakLoop_true_close_end samples inverted samples.length
                        [] i startIdx hi]
                      have hlen0 : ((samples.take (i + 1)).drop startIdx).length > 0 := by
                        rw [List.length_drop, List.length_take]
                        omega
                      rw [if_pos hlen0]
                      show [startIdx +
                          (if inverted then argmaxIdx ((samples.take (i + 1)).drop startIdx)
                           else argminIdx ((samples.take (i + 1)).drop startIdx))] ++
                          peakLoop samples inverted samples.length [] (i + 1) false startIdx =
                        peakOf samples inverted
                          (startIdx, i + ([true].takeWhile (fun x => x = true)).length) ::
                          runPeaks samples inverted
                            ([true].dropWhile (fun x => x = true))
                            (i + ([true].takeWhile (fun x => x = true)).length)
                      conv_rhs =>
                        rw [List.takeWhile_cons_of_pos (by simp),
                          List.dropWhile_cons_of_pos (by simp)]
                      simp only [List.takeWhile_nil, List.dropWhile_nil,
                        List.length_cons, List.length_nil, Nat.zero_add]
                      unfold runPeaks
                      rw [maximalRunsAux_nil]
                      rfl
                  | cons c cs =>
                      have hi : i ≠ samples.length - 1 := by
                        simp only [List.length_cons] at hlen'
                        omega
                      rw [peakLoop_true_continue samples inverted samples.length
                        (c :: cs) i startIdx hi,
                        ih (c :: cs) (i + 1) true startIdx hfuel' hlen'
                          (fun _ => lt_trans hstart' (Nat.lt_succ_self i))]
                      show peakOf samples inverted
                          (startIdx, (i + 1) + ((c :: cs).takeWhile (fun x => x = true)).length) ::
                          runPeaks samples inverted
                            ((c :: cs).dropWhile (fun x => x = true))
                            ((i + 1) + ((c :: cs).takeWhile (fun x => x = true)).length) =
                        peakOf samples inverted
                          (startIdx, i + ((true :: c :: cs).takeWhile (fun x => x = true)).length) ::
                          runPeaks samples inverted
                            ((true :: c :: cs).dropWhile (fun x => x = true))
                            (i + ((true :: c :: cs).takeWhile (fun x => x = true)).length)
                      conv_rhs =>
                        rw [List.takeWhile_cons_of_pos (by simp),
                          List.dropWhile_cons_of_pos (by simp)]
                      simp only [List.length_cons]
                      have harith : i + (((c :: cs).takeWhile (fun x => x = true)).length + 1) =
                          i + 1 + ((c :: cs).takeWhile (fun x => x = true)).length := by
                        omega
                      rw [harith]

/-- spike_peaks equals: one peak for every maximal run of the mask except a
run starting at the final sample, in run order. -/
theorem spikePeaks_char (samples : List Int) (t : Int) (inverted : Bool) :
    spikePeaks samples (some t) inverted =
      ((maximalRuns (isSpikeMask samples t inverted)).filter
        (fun r => decide (r.1 + 1 ≠ samples.length))).map
        (peakOf samples inverted) := by
  have hmask : (isSpikeMask samples t inverted).length = samples.length :=
    List.length_map _ _
  have h := peakLoop_char samples inverted (isSpikeMask samples t inverted).length
    (isSpikeMask samples t inverted) 0 false 0 le_rfl (by simpa using hmask)
    (by simp)
  show peakLoop samples inverted samples.length (isSpikeMask samples t inverted)
    0 false 0 = _
  rw [h]
  rfl

theorem getD_map_of_lt {α β : Type} (f : α → β) (l : List α) (i : Nat)
    (hi : i < l.length) (d : α) (d' : β) :
    (l.map f).getD i d' = f (l.getD i d) := by
  rw [List.getD_eq_getElem?_getD, List.getD_eq_getElem?_getD, List.getElem?_map,
    List.getElem?_eq_getElem hi]
  rfl

theorem getD_slice (l : List Int) (s e m : Nat) (hm : m < e - s)
    (he : e ≤ l.length) :
    ((l.take e).drop s).getD m 0 = l.getD (s + m) 0 := by
  rw [List.getD_eq_getElem?_getD, List.getD_eq_getElem?_getD, List.getElem?_drop,
    List.getElem?_take_of_lt (by omega)]

/-- Threshold peaks come out strictly ascending: each peak lies inside its
run and the runs are disjoint and left to right. -/
theorem spikePeaks_sorted (samples : List Int) (th : Option Int)
    (inverted : Bool) : (spikePeaks samples th inverted).Pairwise (· < ·) := by
  cases th with
  | none => simp [spikePeaks]
  | some t =>
      rw [spikePeaks_char]
      have hmask : (isSpikeMask samples t inverted).length = samples.length :=
        List.length_map _ _
      obtain ⟨hbound, hpair⟩ := maximalRunsAux_bounds
        (isSpikeMask samples t inverted).length (isSpikeMask samples t inverted)
        0 le_rfl
      rw [List.pairwise_map]
      refine List.Pairwise.imp_of_mem ?_ (hpair.filter _)
      intro a b ha hb hab
      have ha' := hbound a (List.mem_of_mem_filter ha)
      have hb' := hbound b (List.mem_of_mem_filter hb)
      have haN : a.2 ≤ samples.length := by
        have := ha'.2.2
        omega
      have hsega : ((samples.take a.2).drop a.1).length = a.2 - a.1 := by
        rw [List.length_drop, List.length_take]
        omega
      have hsegane : (samples.take a.2).drop a.1 ≠ [] := by
        intro hc
        rw [hc] at hsega
        simp only [List.length_nil] at hsega
        omega
      have harga : (if inverted then argmaxIdx ((samples.take a.2).drop a.1)
          else argminIdx ((samples.take a.2).drop a.1)) < a.2 - a.1 := by
        cases inverted
        · simpa [hsega] using argminIdx_lt_length _ hsegane
        · simpa [hsega] using argmaxIdx_lt_length _ hsegane
      show a.1 + _ < b.1 + _
      omega

/-- spike_peaks of the precomputed strategy (src/api.py lines 776-777):
window-filtered times converted to window-relative offsets, in source
order. -/
def precomputedPeaks (times : List Int) (s e : Int) : List Int :=
  (times.filter (fun t => decide (s ≤ t ∧ t < e))).map (fun t => t - s)

theorem precomputedPeaks_sorted_of_sorted (times : List Int) (s e : Int)
    (hsorted : times.Pairwise (· ≤ ·)) :
    (precomputedPeaks times s e).Pairwise (· ≤ ·) := by
  unfold precomputedPeaks
  rw [List.pairwise_map]
  refine List.Pairwise.imp ?_ (hsorted.filter _)
  intro a b hab
  omega

/-- C9 counterexample: the unsorted precomputed source [10, 3] over the
window [0, 20) produces the peaks [10, 3] in source order, which are not
ascending. -/
theorem precomputed_unsorted_counterexample :
    precomputedPeaks [10, 3] 0 20 = [10, 3] ∧
    ¬ (precomputedPeaks [10, 3] 0 20).Pairwise (· ≤ ·) := by
  constructor
  · rfl
  · intro h
    have := List.pairwise_cons.mp h
    have h10 : (10 : Int) ≤ 3 := this.1 3 (by simp)
    omega

/-- C9 amended: the threshold strategy always reports its per-channel peaks
in strictly ascending window-relative order; the precomputed strategy
preserves the source order of the spike times, so its peaks are ascending
whenever the source times are ascending, but not for an unsorted source. -/
theorem detection_order_spec (samples : List Int) (th : Option Int)
    (inverted : Bool) (times : List Int) (s e : Int) :
    (spikePeaks samples th inverted).Pairwise (· < ·) ∧
    (times.Pairwise (· ≤ ·) → (precomputedPeaks times s e).Pairwise (· ≤ ·)) :=
  ⟨spikePeaks_sorted samples th inverted,
   precomputedPeaks_sorted_of_sorted times s e⟩

/-- Witness for the C9 amended theorem: the sorted source 3, 10, 17 over
[0, 20) yields ascending peaks. -/
theorem detection_order_spec_witness :
    (precomputedPeaks [3, 10, 17] 0 20).Pairwise (· ≤ ·) :=
  (detection_order_spec [] none false [3, 10, 17] 0 20).2 (by decide)

/-- C5 counterexample: samples [5, -2] with threshold -1, not inverted.
The mask is [false, true]: a maximal run consisting of only the final
sample, whose peak would be index 1, exists, yet the loop closes no run and
reports no peak. -/
theorem final_sample_run_dropped :
    isSpikeMask [5, -2] (-1) false = [false, true] ∧
    maximalRuns (isSpikeMask [5, -2] (-1) false) = [(1, 2)] ∧
    peakOf [5, -2] false (1, 2) = 1 ∧
    spikePeaks [5, -2] (some (-1)) false = [] := by
  refine ⟨by decide, ?_, by decide, by decide⟩
  show maximalRuns [false, true] = [(1, 2)]
  unfold maximalRuns
  simp [maximalRunsAux]

/-- C5 amended: isSpike marks samples at or below the threshold (at or
above when inverted); the loop reports, for each maximal run of true except
a run consisting of only the final sample (such a run is never closed and
yields no peak), the in-window index of the run's first minimum (first
maximum when inverted); on [5, -2, -9, -3, 4] with threshold -1 the mask is
[F, T, T, T, F], the single run covers indices 1 to 3, and the peak is
index 2. -/
theorem threshold_detection_spec (samples : List Int) (t : Int)
    (inverted : Bool) :
    (∀ i, i < samples.length →
      (isSpikeMask samples t inverted).getD i false =
        (if inverted then decide (samples.getD i 0 ≥ t)
         else decide (samples.getD i 0 ≤ t))) ∧
    spikePeaks samples (some t) inverted =
      ((maximalRuns (isSpikeMask samples t inverted)).filter
        (fun r => decide (r.1 + 1 ≠ samples.length))).map
        (peakOf samples inverted) ∧
    spikePeaks samples none inverted = [] ∧
    (∀ r : Nat × Nat, r.1 < r.2 → r.2 ≤ samples.length →
      r.1 ≤ peakOf samples inverted r ∧ peakOf samples inverted r < r.2 ∧
      ∀ q, r.1 ≤ q → q < r.2 →
        (if inverted then
          samples.getD q 0 ≤ samples.getD (peakOf samples inverted r) 0
         else
          samples.getD (peakOf samples inverted r) 0 ≤ samples.getD q 0)) ∧
    (isSpikeMask [5, -2, -9, -3, 4] (-1) false =
        [false, true, true, true, false] ∧
      maximalRuns (isSpikeMask [5, -2, -9, -3, 4] (-1) false) = [(1, 4)] ∧
      spikePeaks [5, -2, -9, -3, 4] (some (-1)) false = [2]) := by
  refine ⟨?_, spikePeaks_char samples t inverted, rfl, ?_, by decide, ?_, by decide⟩
  · intro i hi
    exact getD_map_of_lt _ samples i hi 0 false
  · intro r hlt hle
    have hseglen : ((samples.take r.2).drop r.1).length = r.2 - r.1 := by
      rw [List.length_drop, List.length_take]
      omega
    have hsegne : (samples.take r.2).drop r.1 ≠ [] := by
      intro hc
      rw [hc] at hseglen
      simp only [List.length_nil] at hseglen
      omega
    have harg : (if inverted then argmaxIdx ((samples.take r.2).drop r.1)
        else argminIdx ((samples.take r.2).drop r.1)) < r.2 - r.1 := by
      cases inverted
      · simpa [hseglen] using argminIdx_lt_length _ hsegne
      · simpa [hseglen] using argmaxIdx_lt_length _ hsegne
    refine ⟨Nat.le_add_right _ _, by show r.1 + _ < r.2; omega, ?_⟩
    intro q hq1 hq2
    have hidx : r.1 + (q - r.1) = q := by omega
    cases inverted with
    | false =>
        show samples.getD (r.1 + argminIdx ((samples.take r.2).drop r.1)) 0 ≤
          samples.getD q 0
        have h1 := getD_slice samples r.1 r.2
          (argminIdx ((samples.take r.2).drop r.1)) (by simpa using harg) hle
        have h2 := getD_slice samples r.1 r.2 (q - r.1) (by omega) hle
        rw [hidx] at h2
        rw [← h1, ← h2]
        exact argminIdx_min _ (q - r.1) (by rw [hseglen]; omega)
    | true =>
        show samples.getD q 0 ≤
          samples.getD (r.1 + argmaxIdx ((samples.take r.2).drop r.1)) 0
        have h1 := getD_slice samples r.1 r.2
          (argmaxIdx ((samples.take r.2).drop r.1)) (by simpa using harg) hle
        have h2 := getD_slice samples r.1 r.2 (q - r.1) (by omega) hle
        rw [hidx] at h2
        rw [← h1, ← h2]
        exact argmaxIdx_max _ (q - r.1) (by rw [hseglen]; omega)
  · show maximalRuns [false, true, true, true, false] = [(1, 4)]
    unfold maximalRuns
    simp [maximalRunsAux]

/-- Witness for the C5 amended theorem: on the spec's example the run
[1, 4) has its peak strictly before the run's end, and the reported peaks
are [2]. -/
theorem threshold_detection_spec_witness :
    peakOf [5, -2, -9, -3, 4] false (1, 4) < 4 ∧
    spikePeaks [5, -2, -9, -3, 4] (some (-1)) false = [2] := by
  have h := threshold_detection_spec [5, -2, -9, -3, 4] (-1) false
  exact ⟨(h.2.2.2.1 (1, 4) (by decide) (by decide)).2.1, h.2.2.2.2.2.2⟩

end SpikeDashboard
